import Mathlib

/-!
# Verification of the course-ranking survey pipeline (`analyze.py`)

A shallow embedding of the data-analysis pipeline in `src/analyze.py`:
filter rows by the `Finished` column, resolve the three sentiment-bucket
columns by substring match, tally comma-separated course mentions per
bucket, score each course by `(2*most + 1*neutral + 0*least) / N`, and
rank with a stable merge sort on (score desc, most desc, neutral desc,
course asc).

Text is modelled as `List Char` so that every operation (strip, lower,
split, substring search) is a structurally recursive, kernel-computable
function.  Missing (NaN) cells are modelled as `none : Option Str`.
Scores are exact rationals built with `Rat.divInt`.
-/

namespace DataWorkflow

/-- Text values, as lists of characters. -/
abbrev Str := List Char

/-- The whitespace test used by Python `str.strip` (ASCII whitespace). -/
def pySpace (c : Char) : Bool :=
  c = ' ' || c = '\t' || c = '\n' || c = '\r' || c = '\x0b' || c = '\x0c'

/-- Python `str.strip`: drop whitespace from both ends. -/
def pyStrip (s : Str) : Str :=
  ((s.dropWhile pySpace).reverse.dropWhile pySpace).reverse

/-- Python `str.lower`, restricted to ASCII letters (all that the
pipeline compares against). -/
def pyLower (s : Str) : Str := s.map Char.toLower

/-- Python `s.split(",")`, accumulating the current piece in reverse.
`"".split(",")` is `[""]`, and every comma separates two pieces. -/
def splitCommaAux : Str → Str → List Str
  | [], acc => [acc.reverse]
  | c :: rest, acc =>
    if c = ',' then acc.reverse :: splitCommaAux rest []
    else splitCommaAux rest (c :: acc)

/-- Python `s.split(",")`. -/
def splitComma (s : Str) : List Str := splitCommaAux s []

/-- The truthy set of `normalize_finished`. -/
def truthy : List Str := ["true", "1", "yes", "y", "t"].map String.toList

/-- `normalize_finished` applied to one cell of the `Finished` column:
convert to string (pandas `astype(str)` renders a missing value as
`"nan"`), strip, lower, and test membership in the truthy set. -/
def normalize_finished (cell : Option Str) : Bool :=
  let s := match cell with
    | none => "nan".toList
    | some v => v
  truthy.contains (pyLower (pyStrip s))

/-- Substring test: does `needle` occur contiguously inside `hay`?
(Models the Python `in` operator on strings.) -/
def containsSub (needle : Str) : Str → Bool
  | [] => needle.isEmpty
  | c :: rest => needle.isPrefixOf (c :: rest) || containsSub needle rest

/-- The error taxonomy of the pipeline (each `raise` site in `main`). -/
inductive Err where
  | DatasetNotFound : Err
  | AmbiguousColumn : Str → List Str → Err
  | EmptyDataset : Err
  | NoCoursesFound : Err
deriving DecidableEq

/-- The literal substring `"Groups"` required of every bucket column. -/
def groupsLit : Str := "Groups".toList

/-- `find_group_column`: keep the column names containing both
`"Groups"` and the keyword; succeed only on exactly one match, otherwise
report the keyword and the full match list. -/
def find_group_column (columns : List Str) (keyword : Str) : Except Err Str :=
  let ms := columns.filter (fun c => containsSub groupsLit c && containsSub keyword c)
  match ms with
  | [m] => Except.ok m
  | _ => Except.error (Err.AmbiguousColumn keyword ms)

/-- `split_courses`: a missing cell gives `[]`; otherwise split the text
on commas, strip each piece, and drop pieces that are empty after
stripping. -/
def split_courses (value : Option Str) : List Str :=
  match value with
  | none => []
  | some v => ((splitComma v).map pyStrip).filter (fun p => decide (p ≠ []))

/-- Per-course counters, as in `course_stats[course]`. -/
structure Counts where
  most : Nat
  neutral : Nat
  least : Nat
deriving DecidableEq

/-- The three sentiment buckets. -/
inductive Bucket where
  | most
  | neutral
  | least
deriving DecidableEq

/-- Increment the counter of one bucket. -/
def Counts.bump : Counts → Bucket → Counts
  | c, Bucket.most => { c with most := c.most + 1 }
  | c, Bucket.neutral => { c with neutral := c.neutral + 1 }
  | c, Bucket.least => { c with least := c.least + 1 }

/-- Sum of the three counters. -/
def Counts.total (c : Counts) : Nat := c.most + c.neutral + c.least

/-- The tally map `course_stats`, as an insertion-ordered association
list (Python dicts preserve insertion order). -/
abbrev Tally := List (Str × Counts)

/-- Counters of `course` in the tally (all-zero when absent). -/
def tallyGet : Tally → Str → Counts
  | [], _ => ⟨0, 0, 0⟩
  | (k, c) :: rest, x => if k = x then c else tallyGet rest x

/-- One increment of the tally: create an all-zero entry on first
encounter, then bump the bucket counter. -/
def addCourse (t : Tally) (course : Str) (b : Bucket) : Tally :=
  match t with
  | [] => [(course, Counts.bump ⟨0, 0, 0⟩ b)]
  | (k, c) :: rest =>
    if k = course then (k, c.bump b) :: rest
    else (k, c) :: addCourse rest course b

/-- Tally every course of one bucket list. -/
def addCourses (t : Tally) (b : Bucket) (courses : List Str) : Tally :=
  courses.foldl (fun acc c => addCourse acc c b) t

/-- A respondent row: cells addressed by column name; a name that is
absent behaves as a missing value. -/
abbrev Row := List (Str × Option Str)

/-- Cell access `row[col]`. -/
def getCell (r : Row) (col : Str) : Option Str :=
  match r.lookup col with
  | some v => v
  | none => none

/-- The loaded table: column headers plus rows. -/
structure Table where
  columns : List Str
  rows : List Row

def finishedLit : Str := "Finished".toList

def mostKw : Str := "Most Beneficial".toList

def neutralKw : Str := "Neutral".toList

def leastKw : Str := "Least Beneficial".toList

/-- The completion filter: when a `Finished` column exists keep only the
rows whose cell normalizes to true, otherwise keep all rows. -/
def retainedRows (t : Table) : List Row :=
  if t.columns.contains finishedLit then
    t.rows.filter (fun r => normalize_finished (getCell r finishedLit))
  else t.rows

/-- The tally contribution of one row: its three bucket cells, processed
in the order most, neutral, least. -/
def tallyRow (t : Tally) (mc uc lc : Str) (r : Row) : Tally :=
  addCourses
    (addCourses
      (addCourses t Bucket.most (split_courses (getCell r mc)))
      Bucket.neutral (split_courses (getCell r uc)))
    Bucket.least (split_courses (getCell r lc))

/-- The full tally loop over the retained rows. -/
def tallyRows (rows : List Row) (mc uc lc : Str) : Tally :=
  rows.foldl (fun t r => tallyRow t mc uc lc r) []

/-- One row of `ranking_rows`: course, exact rational score, the three
raw counters, and the retained-row count `N`. -/
structure Entry where
  course : Str
  score : ℚ
  most : Nat
  neutral : Nat
  least : Nat
  N : Nat
deriving DecidableEq

/-- Build the ranking row of one tally entry.  The score is the exact
rational `(2*most + 1*neutral + 0*least) / n`. -/
def mkEntry (n : Nat) (p : Str × Counts) : Entry :=
  { course := p.1
    score := Rat.divInt (2 * p.2.most + 1 * p.2.neutral + 0 * p.2.least) n
    most := p.2.most
    neutral := p.2.neutral
    least := p.2.least
    N := n }

/-- Lexicographic strict comparison of text by character code (the
comparison pandas applies to the `course` sort key). -/
def strLt : Str → Str → Bool
  | [], [] => false
  | [], _ :: _ => true
  | _ :: _, [] => false
  | a :: as, b :: bs => if a < b then true else if b < a then false else strLt as bs

/-- One level of a lexicographic multi-key comparison, descending in
this key: an entry with the larger key comes first, equal keys defer to
the remaining keys. -/
def ltStep {α : Type} [LinearOrder α] (x y : α) (rest : Bool) : Bool :=
  if y < x then true
  else if x < y then false
  else rest

/-- The sort key of `sort_values(by=[score, most, neutral, course],
ascending=[False, False, False, True])`: `a` may precede `b` iff the key
tuple of `a` is lexicographically no later than that of `b`. -/
def entryKeyLE (a b : Entry) : Bool :=
  ltStep a.score b.score
    (ltStep a.most b.most
      (ltStep a.neutral b.neutral
        (!strLt b.course a.course)))

/-- The ranker: stable merge sort by the pandas key tuple, then
`rank = index + 1` on the sorted order. -/
def rankCourses (stats : Tally) (n : Nat) : List (Nat × Entry) :=
  ((stats.map (mkEntry n)).mergeSort entryKeyLE).enum.map (fun p => (p.1 + 1, p.2))

instance excDecEq {ε α : Type} [DecidableEq ε] [DecidableEq α] :
    DecidableEq (Except ε α)
  | Except.error e, Except.error f =>
    if h : e = f then isTrue (by rw [h]) else isFalse (fun hc => h (Except.error.inj hc))
  | Except.error _, Except.ok _ => isFalse (fun hc => Except.noConfusion hc)
  | Except.ok _, Except.error _ => isFalse (fun hc => Except.noConfusion hc)
  | Except.ok a, Except.ok b =>
    if h : a = b then isTrue (by rw [h]) else isFalse (fun hc => h (Except.ok.inj hc))

/-- The result of a completed run: the retained-row count and the ranked
table. -/
structure PipelineOut where
  n : Nat
  ranking : List (Nat × Entry)
deriving DecidableEq

/-- `main`, from the point where the table is in memory: completion
filter, hard stop on zero rows, column resolution, tally, hard stop on
an empty tally, then scoring and ranking. -/
def runPipeline (t : Table) : Except Err PipelineOut :=
  if (retainedRows t).length = 0 then Except.error Err.EmptyDataset
  else
    match find_group_column t.columns mostKw with
    | Except.error e => Except.error e
    | Except.ok mc =>
      match find_group_column t.columns neutralKw with
      | Except.error e => Except.error e
      | Except.ok uc =>
        match find_group_column t.columns leastKw with
        | Except.error e => Except.error e
        | Except.ok lc =>
          if (tallyRows (retainedRows t) mc uc lc).isEmpty then
            Except.error Err.NoCoursesFound
          else
            Except.ok
              { n := (retainedRows t).length
                ranking := rankCourses (tallyRows (retainedRows t) mc uc lc)
                  (retainedRows t).length }

/-- The two output artifacts of the reporter: the CSV of the full
ranking and the PNG chart of the top 15 rows. -/
inductive OutFile where
  | csv : List (Nat × Entry) → OutFile
  | png : List (Nat × Entry) → OutFile
deriving DecidableEq

/-- The files written by a run.  Every `raise` happens before the first
write, so an erroring run writes nothing. -/
def outputFiles (t : Table) : List OutFile :=
  match runPipeline t with
  | Except.error _ => []
  | Except.ok out => [OutFile.csv out.ranking, OutFile.png (out.ranking.take 15)]

/-! ## Order lemmas for the sort key -/

theorem strLt_irrefl : ∀ s : Str, strLt s s = false
  | [] => rfl
  | a :: as => by simp [strLt, strLt_irrefl as]

theorem strLt_trans : ∀ a b c : Str, strLt a b = true → strLt b c = true → strLt a c = true
  | [], [], _, h1, _ => by simp [strLt] at h1
  | [], _ :: _, [], _, h2 => by simp [strLt] at h2
  | [], _ :: _, _ :: _, _, _ => by simp [strLt]
  | _ :: _, [], _, h1, _ => by simp [strLt] at h1
  | _ :: _, _ :: _, [], _, h2 => by simp [strLt] at h2
  | a :: as, b :: bs, c :: cs, h1, h2 => by
    simp only [strLt] at h1 h2 ⊢
    rcases lt_trichotomy a b with hab | hab | hab
    · rcases lt_trichotomy b c with hbc | hbc | hbc
      · simp [lt_trans hab hbc]
      · subst hbc; simp [hab]
      · rw [if_neg (lt_asymm hbc), if_pos hbc] at h2
        simp at h2
    · subst hab
      rw [if_neg (lt_irrefl a), if_neg (lt_irrefl a)] at h1
      rcases lt_trichotomy a c with hac | hac | hac
      · simp [hac]
      · subst hac
        rw [if_neg (lt_irrefl a), if_neg (lt_irrefl a)] at h2 ⊢
        exact strLt_trans as bs cs h1 h2
      · rw [if_neg (lt_asymm hac), if_pos hac] at h2
        simp at h2
    · rw [if_neg (lt_asymm hab), if_pos hab] at h1
      simp at h1

theorem strLt_asymm {a b : Str} (h : strLt a b = true) : strLt b a = false := by
  by_contra hc
  have hba : strLt b a = true := by
    cases hx : strLt b a
    · exact absurd hx hc
    · rfl
  have := strLt_trans a b a h hba
  rw [strLt_irrefl] at this
  cases this

theorem strLt_connex : ∀ a b : Str, strLt a b = false → strLt b a = false → a = b
  | [], [], _, _ => rfl
  | [], _ :: _, h1, _ => by simp [strLt] at h1
  | _ :: _, [], _, h2 => by simp [strLt] at h2
  | a :: as, b :: bs, h1, h2 => by
    simp only [strLt] at h1 h2
    rcases lt_trichotomy a b with hab | hab | hab
    · rw [if_pos hab] at h1; cases h1
    · subst hab
      rw [if_neg (lt_irrefl a), if_neg (lt_irrefl a)] at h1 h2
      rw [strLt_connex as bs h1 h2]
    · rw [if_pos hab] at h2; cases h2

theorem strNotLt_trans {a b c : Str} (h1 : strLt b a = false) (h2 : strLt c b = false) :
    strLt c a = false := by
  cases hx : strLt c a
  · rfl
  · exfalso
    cases hy : strLt a b
    · have hab := strLt_connex a b hy h1
      subst hab
      rw [h2] at hx
      cases hx
    · have hcb := strLt_trans c a b hx hy
      rw [hcb] at h2
      cases h2

/-- `strLt` agrees with the standard lexicographic strict order on
character lists. -/
theorem strLt_iff_lex : ∀ a b : Str, strLt a b = true ↔ List.Lex (· < ·) a b
  | [], [] => by
    simp only [strLt]
    constructor
    · intro h; cases h
    · intro h; cases h
  | [], b :: bs => by
    simp only [strLt]
    constructor
    · intro _
      exact List.Lex.nil
    · intro _
      trivial
  | a :: as, [] => by
    simp only [strLt]
    constructor
    · intro h; cases h
    · intro h; cases h
  | a :: as, b :: bs => by
    simp only [strLt]
    rcases lt_trichotomy a b with hab | hab | hab
    · rw [if_pos hab]
      exact ⟨fun _ => List.Lex.rel hab, fun _ => rfl⟩
    · subst hab
      rw [if_neg (lt_irrefl a), if_neg (lt_irrefl a)]
      constructor
      · intro h; exact List.Lex.cons ((strLt_iff_lex as bs).1 h)
      · intro h
        cases h with
        | cons h => exact (strLt_iff_lex as bs).2 h
        | rel h => exact absurd h (lt_irrefl a)
    · rw [if_neg (lt_asymm hab), if_pos hab]
      constructor
      · intro h; cases h
      · intro h
        cases h with
        | cons h => exact absurd rfl (ne_of_gt hab)
        | rel h => exact absurd h (lt_asymm hab)

theorem ltStep_trans {α : Type} [LinearOrder α] {x y z : α} {r1 r2 r3 : Bool}
    (h : r1 = true → r2 = true → r3 = true)
    (h1 : ltStep x y r1 = true) (h2 : ltStep y z r2 = true) :
    ltStep x z r3 = true := by
  unfold ltStep at h1 h2 ⊢
  rcases lt_trichotomy x y with hxy | hxy | hxy
  · rw [if_neg (lt_asymm hxy), if_pos hxy] at h1; cases h1
  · subst hxy
    rw [if_neg (lt_irrefl x), if_neg (lt_irrefl x)] at h1
    rcases lt_trichotomy x z with hxz | hxz | hxz
    · rw [if_neg (lt_asymm hxz), if_pos hxz] at h2; cases h2
    · subst hxz
      rw [if_neg (lt_irrefl x), if_neg (lt_irrefl x)] at h2 ⊢
      exact h h1 h2
    · rw [if_pos hxz]
  · rcases lt_trichotomy y z with hyz | hyz | hyz
    · rw [if_neg (lt_asymm hyz), if_pos hyz] at h2; cases h2
    · subst hyz
      rw [if_pos hxy]
    · rw [if_pos (lt_trans hyz hxy)]

theorem ltStep_total {α : Type} [LinearOrder α] {x y : α} {r1 r2 : Bool}
    (h : (r1 || r2) = true) : (ltStep x y r1 || ltStep y x r2) = true := by
  unfold ltStep
  rcases lt_trichotomy x y with hxy | hxy | hxy
  · rw [if_neg (lt_asymm hxy), if_pos hxy, if_pos hxy]
    simp
  · subst hxy
    rw [if_neg (lt_irrefl x), if_neg (lt_irrefl x), if_neg (lt_irrefl x),
      if_neg (lt_irrefl x)]
    exact h
  · rw [if_pos hxy]
    simp

theorem entryKeyLE_trans {a b c : Entry}
    (h1 : entryKeyLE a b = true) (h2 : entryKeyLE b c = true) :
    entryKeyLE a c = true := by
  unfold entryKeyLE at h1 h2 ⊢
  refine ltStep_trans (fun p1 p2 => ?_) h1 h2
  refine ltStep_trans (fun q1 q2 => ?_) p1 p2
  refine ltStep_trans (fun s1 s2 => ?_) q1 q2
  simp only [Bool.not_eq_true'] at s1 s2 ⊢
  exact strNotLt_trans s1 s2

theorem entryKeyLE_total (a b : Entry) :
    (entryKeyLE a b || entryKeyLE b a) = true := by
  unfold entryKeyLE
  refine ltStep_total (ltStep_total (ltStep_total ?_))
  cases hx : strLt b.course a.course
  · simp
  · rw [strLt_asymm hx]
    simp

/-! ## Structure of the ranker output -/

theorem rankCourses_map_snd (stats : Tally) (n : Nat) :
    (rankCourses stats n).map Prod.snd = (stats.map (mkEntry n)).mergeSort entryKeyLE := by
  unfold rankCourses
  rw [List.map_map]
  have h : (Prod.snd ∘ fun p : Nat × Entry => (p.1 + 1, p.2)) = Prod.snd := rfl
  rw [h, List.enum_map_snd]

theorem enum_map_fst_succ {α : Type} (l : List α) :
    l.enum.map (fun p => p.1 + 1) = List.range' 1 l.length := by
  rw [List.enum_eq_zip_range]
  have h : ((List.range l.length).zip l).map (fun p : Nat × α => p.1 + 1)
      = (((List.range l.length).zip l).map Prod.fst).map (fun i => i + 1) := by
    rw [List.map_map]
    rfl
  rw [h, List.map_fst_zip _ _ (by rw [List.length_range]), List.range'_eq_map_range]
  exact List.map_congr_left (fun a _ => by omega)

theorem rankCourses_map_fst (stats : Tally) (n : Nat) :
    (rankCourses stats n).map Prod.fst = List.range' 1 stats.length := by
  unfold rankCourses
  rw [List.map_map]
  have h : (Prod.fst ∘ fun p : Nat × Entry => (p.1 + 1, p.2))
      = (fun p : Nat × Entry => p.1 + 1) := rfl
  rw [h, enum_map_fst_succ, List.length_mergeSort, List.length_map]

theorem rankCourses_perm (stats : Tally) (n : Nat) :
    ((rankCourses stats n).map Prod.snd).Perm (stats.map (mkEntry n)) := by
  rw [rankCourses_map_snd]
  exact List.mergeSort_perm _ _

theorem rankCourses_sortedKey (stats : Tally) (n : Nat) :
    ((rankCourses stats n).map Prod.snd).Pairwise (fun a b => entryKeyLE a b = true) := by
  rw [rankCourses_map_snd]
  exact @List.sorted_mergeSort Entry entryKeyLE
    (fun a b c h1 h2 => entryKeyLE_trans h1 h2) entryKeyLE_total (stats.map (mkEntry n))

/-- The ranking order as the specification words it: descending score,
then descending most, then descending neutral, then ascending course
name in the lexicographic character order. -/
def specBefore (a b : Entry) : Prop :=
  b.score < a.score ∨
    (a.score = b.score ∧
      (b.most < a.most ∨
        (a.most = b.most ∧
          (b.neutral < a.neutral ∨
            (a.neutral = b.neutral ∧
              (List.Lex (· < ·) a.course b.course ∨ a.course = b.course))))))

theorem ltStep_elim {α : Type} [LinearOrder α] {x y : α} {r : Bool}
    (h : ltStep x y r = true) : y < x ∨ (x = y ∧ r = true) := by
  unfold ltStep at h
  rcases lt_trichotomy x y with hxy | hxy | hxy
  · rw [if_neg (lt_asymm hxy), if_pos hxy] at h
    cases h
  · right
    refine ⟨hxy, ?_⟩
    rwa [if_neg (by rw [hxy]; exact lt_irrefl y), if_neg (by rw [hxy]; exact lt_irrefl y)] at h
  · exact Or.inl hxy

theorem entryKeyLE_specBefore {a b : Entry} (h : entryKeyLE a b = true) :
    specBefore a b := by
  unfold entryKeyLE at h
  rcases ltStep_elim h with hs | ⟨hs, h⟩
  · exact Or.inl hs
  · refine Or.inr ⟨hs, ?_⟩
    rcases ltStep_elim h with hm | ⟨hm, h⟩
    · exact Or.inl hm
    · refine Or.inr ⟨hm, ?_⟩
      rcases ltStep_elim h with hu | ⟨hu, h⟩
      · exact Or.inl hu
      · refine Or.inr ⟨hu, ?_⟩
        simp only [Bool.not_eq_true'] at h
        cases hx : strLt a.course b.course
        · exact Or.inr (strLt_connex _ _ hx h)
        · exact Or.inl ((strLt_iff_lex _ _).1 hx)

theorem rankCourses_sortedSpec (stats : Tally) (n : Nat) :
    ((rankCourses stats n).map Prod.snd).Pairwise specBefore :=
  (rankCourses_sortedKey stats n).imp (fun h => entryKeyLE_specBefore h)

theorem sum_range'_one (k : Nat) : 2 * (List.range' 1 k).sum = k * (k + 1) := by
  induction k with
  | zero => rfl
  | succ k ih =>
    rw [List.range'_concat, List.sum_append]
    simp only [List.sum_cons, List.sum_nil]
    have h2 : 2 * ((List.range' 1 k).sum + (1 + 1 * k + 0))
        = 2 * (List.range' 1 k).sum + 2 * (1 + k) := by ring
    rw [h2, ih]
    ring

/-! ## Tally lemmas -/

theorem Counts.bump_total (c : Counts) (b : Bucket) : (c.bump b).total = c.total + 1 := by
  cases b <;> simp [Counts.bump, Counts.total] <;> omega

theorem tallyGet_addCourse : ∀ (t : Tally) (c x : Str) (b : Bucket),
    tallyGet (addCourse t c b) x = if x = c then (tallyGet t x).bump b else tallyGet t x
  | [], c, x, b => by
    simp only [addCourse, tallyGet]
    by_cases h : x = c
    · subst h
      simp
    · rw [if_neg (fun hx : c = x => h hx.symm), if_neg h]
  | (k, c0) :: rest, c, x, b => by
    simp only [addCourse]
    by_cases hkc : k = c
    · subst hkc
      rw [if_pos rfl]
      simp only [tallyGet]
      by_cases hkx : k = x
      · subst hkx
        rw [if_pos rfl, if_pos rfl, if_pos rfl]
      · rw [if_neg hkx, if_neg hkx, if_neg (fun h : x = k => hkx h.symm)]
    · rw [if_neg hkc]
      simp only [tallyGet]
      by_cases hkx : k = x
      · subst hkx
        rw [if_pos rfl, if_pos rfl, if_neg (fun h : k = c => hkc h)]
      · rw [if_neg hkx, if_neg hkx]
        exact tallyGet_addCourse rest c x b

theorem tallyGet_addCourse_total (t : Tally) (c x : Str) (b : Bucket) :
    (tallyGet (addCourse t c b) x).total
      = (tallyGet t x).total + (if x = c then 1 else 0) := by
  rw [tallyGet_addCourse]
  by_cases h : x = c
  · rw [if_pos h, if_pos h, Counts.bump_total]
  · rw [if_neg h, if_neg h]
    omega

theorem tallyGet_addCourses_total : ∀ (l : List Str) (t : Tally) (b : Bucket) (x : Str),
    (tallyGet (addCourses t b l) x).total = (tallyGet t x).total + l.count x
  | [], t, b, x => by simp [addCourses]
  | c :: cs, t, b, x => by
    have hstep : addCourses t b (c :: cs) = addCourses (addCourse t c b) b cs := rfl
    rw [hstep, tallyGet_addCourses_total cs _ b x, tallyGet_addCourse_total,
      List.count_cons]
    by_cases h : x = c
    · simp only [h, if_pos rfl, beq_self_eq_true, if_true]
      omega
    · have hbe : (c == x) = false := beq_eq_false_iff_ne.2 (fun hx => h hx.symm)
      simp only [if_neg h, hbe, Bool.false_eq_true, if_false]
      omega

/-- The number of mentions of course `x` in one row, summed over the
three bucket cells; duplicates inside one cell all count. -/
def rowOcc (mc uc lc : Str) (r : Row) (x : Str) : Nat :=
  (split_courses (getCell r mc)).count x + (split_courses (getCell r uc)).count x +
    (split_courses (getCell r lc)).count x

theorem tallyGet_tallyRow_total (t : Tally) (mc uc lc : Str) (r : Row) (x : Str) :
    (tallyGet (tallyRow t mc uc lc r) x).total
      = (tallyGet t x).total + rowOcc mc uc lc r x := by
  unfold tallyRow rowOcc
  rw [tallyGet_addCourses_total, tallyGet_addCourses_total, tallyGet_addCourses_total]
  omega

theorem tallyGet_tallyRows_aux :
    ∀ (rows : List Row) (t : Tally) (mc uc lc x : Str),
    (tallyGet (rows.foldl (fun acc r => tallyRow acc mc uc lc r) t) x).total
      = (tallyGet t x).total + (rows.map (fun r => rowOcc mc uc lc r x)).sum
  | [], t, _, _, _, _ => by simp
  | r :: rs, t, mc, uc, lc, x => by
    simp only [List.foldl_cons, List.map_cons, List.sum_cons]
    rw [tallyGet_tallyRows_aux rs _ mc uc lc x, tallyGet_tallyRow_total]
    omega

theorem tallyGet_tallyRows_total (rows : List Row) (mc uc lc x : Str) :
    (tallyGet (tallyRows rows mc uc lc) x).total
      = (rows.map (fun r => rowOcc mc uc lc r x)).sum := by
  unfold tallyRows
  rw [tallyGet_tallyRows_aux]
  simp [tallyGet, Counts.total]

/-! ## Tally invariants: keys and counter totals -/

theorem addCourse_inv {P : Str → Prop} :
    ∀ {t : Tally} {c : Str} {b : Bucket},
    (∀ p ∈ t, P p.1 ∧ 1 ≤ p.2.total) → P c →
    ∀ p ∈ addCourse t c b, P p.1 ∧ 1 ≤ p.2.total
  | [], c, b, _, hc, p, hp => by
    simp only [addCourse, List.mem_singleton] at hp
    subst hp
    refine ⟨hc, ?_⟩
    rw [Counts.bump_total]
    omega
  | (k, c0) :: rest, c, b, ht, hc, p, hp => by
    simp only [addCourse] at hp
    by_cases hkc : k = c
    · rw [if_pos hkc] at hp
      rcases List.mem_cons.1 hp with h | h
      · subst h
        refine ⟨(ht (k, c0) (List.mem_cons_self _ _)).1, ?_⟩
        rw [Counts.bump_total]
        omega
      · exact ht p (List.mem_cons_of_mem _ h)
    · rw [if_neg hkc] at hp
      rcases List.mem_cons.1 hp with h | h
      · subst h
        exact ht (k, c0) (List.mem_cons_self _ _)
      · exact addCourse_inv (fun q hq => ht q (List.mem_cons_of_mem _ hq)) hc p h

theorem addCourses_inv {P : Str → Prop} :
    ∀ (l : List Str) {t : Tally} {b : Bucket},
    (∀ p ∈ t, P p.1 ∧ 1 ≤ p.2.total) → (∀ c ∈ l, P c) →
    ∀ p ∈ addCourses t b l, P p.1 ∧ 1 ≤ p.2.total
  | [], _, _, ht, _, p, hp => ht p hp
  | c :: cs, t, b, ht, hl, p, hp => by
    have hstep : addCourses t b (c :: cs) = addCourses (addCourse t c b) b cs := rfl
    rw [hstep] at hp
    exact addCourses_inv cs
      (addCourse_inv ht (hl c (List.mem_cons_self _ _)))
      (fun d hd => hl d (List.mem_cons_of_mem _ hd)) p hp

theorem keys_addCourse : ∀ (t : Tally) (c : Str) (b : Bucket),
    (addCourse t c b).map Prod.fst =
      if c ∈ t.map Prod.fst then t.map Prod.fst else t.map Prod.fst ++ [c]
  | [], c, b => by simp [addCourse]
  | (k, c0) :: rest, c, b => by
    simp only [addCourse, List.map_cons]
    by_cases hkc : k = c
    · subst hkc
      rw [if_pos rfl, if_pos (List.mem_cons_self _ _)]
      simp
    · rw [if_neg hkc, List.map_cons, keys_addCourse rest c b]
      by_cases hm : c ∈ rest.map Prod.fst
      · rw [if_pos hm, if_pos (List.mem_cons_of_mem _ hm)]
      · rw [if_neg hm, if_neg ?hnc, List.cons_append]
        case hnc =>
          intro hc
          rcases List.mem_cons.1 hc with h | h
          · exact hkc h.symm
          · exact hm h

theorem nodupKeys_addCourse {t : Tally} (c : Str) (b : Bucket)
    (h : (t.map Prod.fst).Nodup) : ((addCourse t c b).map Prod.fst).Nodup := by
  rw [keys_addCourse]
  by_cases hm : c ∈ t.map Prod.fst
  · rwa [if_pos hm]
  · rw [if_neg hm]
    rw [← List.concat_eq_append]
    exact h.concat hm

theorem nodupKeys_addCourses : ∀ (l : List Str) {t : Tally} {b : Bucket},
    (t.map Prod.fst).Nodup → ((addCourses t b l).map Prod.fst).Nodup
  | [], _, _, h => h
  | c :: cs, t, b, h => by
    have hstep : addCourses t b (c :: cs) = addCourses (addCourse t c b) b cs := rfl
    rw [hstep]
    exact nodupKeys_addCourses cs (nodupKeys_addCourse c b h)

theorem nodupKeys_tallyRow {t : Tally} (mc uc lc : Str) (r : Row)
    (h : (t.map Prod.fst).Nodup) : ((tallyRow t mc uc lc r).map Prod.fst).Nodup := by
  unfold tallyRow
  exact nodupKeys_addCourses _ (nodupKeys_addCourses _ (nodupKeys_addCourses _ h))

theorem nodupKeys_tallyRows (rows : List Row) (mc uc lc : Str) :
    ((tallyRows rows mc uc lc).map Prod.fst).Nodup := by
  unfold tallyRows
  have haux : ∀ (rs : List Row) (t : Tally), (t.map Prod.fst).Nodup →
      ((rs.foldl (fun acc r => tallyRow acc mc uc lc r) t).map Prod.fst).Nodup := by
    intro rs
    induction rs with
    | nil => exact fun t h => h
    | cons r rs ih =>
      intro t h
      exact ih _ (nodupKeys_tallyRow mc uc lc r h)
  exact haux rows [] (by simp)

/-! ## Stripping is idempotent; extracted course tokens are clean -/

theorem dropWhile_dropWhile {α : Type} (p : α → Bool) :
    ∀ l : List α, (l.dropWhile p).dropWhile p = l.dropWhile p
  | [] => rfl
  | a :: l => by
    by_cases h : p a
    · rw [List.dropWhile_cons_of_pos h]
      exact dropWhile_dropWhile p l
    · rw [List.dropWhile_cons_of_neg h, List.dropWhile_cons_of_neg h]

theorem dropWhile_eq_self_of_prefix {α : Type} {p : α → Bool} :
    ∀ {l m : List α}, l <+: m → m.dropWhile p = m → l.dropWhile p = l
  | [], _, _, _ => rfl
  | a :: l, m, hpre, hm => by
    obtain ⟨rest, hrest⟩ := hpre
    have hpa : p a = false := by
      by_contra hc
      have hpa : p a = true := by
        cases hx : p a
        · exact absurd hx hc
        · rfl
      subst hrest
      rw [List.cons_append, List.dropWhile_cons_of_pos hpa] at hm
      have hle := (List.dropWhile_suffix (l := l ++ rest) p).length_le
      rw [hm] at hle
      simp at hle
    rw [List.dropWhile_cons_of_neg (by rw [hpa]; exact Bool.false_ne_true)]

theorem pyStrip_idem (s : Str) : pyStrip (pyStrip s) = pyStrip s := by
  unfold pyStrip
  set u := s.dropWhile pySpace with hu
  set v := u.reverse.dropWhile pySpace with hv
  have hvrev : v.reverse.dropWhile pySpace = v.reverse := by
    have hpre : v.reverse <+: u := by
      have hsuf : v <:+ u.reverse := by
        rw [hv]
        exact List.dropWhile_suffix pySpace
      have := List.reverse_prefix.2 hsuf
      rwa [List.reverse_reverse] at this
    have huu : u.dropWhile pySpace = u := by
      rw [hu]
      exact dropWhile_dropWhile pySpace s
    exact dropWhile_eq_self_of_prefix hpre huu
  rw [hvrev, List.reverse_reverse]
  have hvv : v.dropWhile pySpace = v := by
    rw [hv]
    exact dropWhile_dropWhile pySpace u.reverse
  rw [hvv]

/-- Every token produced by `split_courses` is non-empty and carries no
leading or trailing whitespace. -/
theorem split_courses_clean {v : Option Str} {p : Str} (hp : p ∈ split_courses v) :
    p ≠ [] ∧ pyStrip p = p := by
  cases v with
  | none => simp [split_courses] at hp
  | some s =>
    simp only [split_courses, List.mem_filter, List.mem_map] at hp
    obtain ⟨⟨q, _, hq⟩, hne⟩ := hp
    refine ⟨by simpa using hne, ?_⟩
    rw [← hq]
    exact pyStrip_idem q

/-! ## `splitComma` really is splitting on the comma character -/

/-- Rejoin pieces with a comma between consecutive pieces (the inverse
of splitting on commas). -/
def joinComma : List Str → Str
  | [] => []
  | [x] => x
  | x :: y :: rest => x ++ ',' :: joinComma (y :: rest)

theorem joinComma_splitCommaAux :
    ∀ (s acc : Str), joinComma (splitCommaAux s acc) = acc.reverse ++ s
  | [], acc => by simp [splitCommaAux, joinComma]
  | c :: rest, acc => by
    simp only [splitCommaAux]
    by_cases hc : c = ','
    · rw [if_pos hc]
      have hne : ∀ (s0 a0 : Str), ∃ p ps, splitCommaAux s0 a0 = p :: ps := by
        intro s0
        induction s0 with
        | nil => exact fun a0 => ⟨a0.reverse, [], rfl⟩
        | cons d ds ih =>
          intro a0
          simp only [splitCommaAux]
          by_cases hd : d = ','
          · rw [if_pos hd]
            obtain ⟨p, ps, hp⟩ := ih []
            exact ⟨a0.reverse, splitCommaAux ds [], rfl⟩
          · rw [if_neg hd]
            exact ih (d :: a0)
      obtain ⟨p, ps, hp⟩ := hne rest []
      rw [hp]
      have : joinComma (acc.reverse :: p :: ps) = acc.reverse ++ ',' :: joinComma (p :: ps) := rfl
      rw [this, ← hp, joinComma_splitCommaAux rest []]
      simp [hc]
    · rw [if_neg hc, joinComma_splitCommaAux rest (c :: acc)]
      simp

/-- Splitting on commas then rejoining with commas recovers the text. -/
theorem joinComma_splitComma (s : Str) : joinComma (splitComma s) = s :=
  joinComma_splitCommaAux s []

/-- No piece produced by `splitComma` contains a comma. -/
theorem splitComma_no_comma :
    ∀ (s acc : Str), (',' ∉ acc) → ∀ p ∈ splitCommaAux s acc, ',' ∉ p
  | [], acc, hacc, p, hp => by
    simp only [splitCommaAux, List.mem_singleton] at hp
    subst hp
    simpa using hacc
  | c :: rest, acc, hacc, p, hp => by
    simp only [splitCommaAux] at hp
    by_cases hc : c = ','
    · rw [if_pos hc] at hp
      rcases List.mem_cons.1 hp with h | h
      · subst h
        simpa using hacc
      · exact splitComma_no_comma rest [] (by simp) p h
    · rw [if_neg hc] at hp
      refine splitComma_no_comma rest (c :: acc) ?_ p hp
      intro hmem
      rcases List.mem_cons.1 hmem with h | h
      · exact hc h.symm
      · exact hacc h

/-! ## `containsSub` really is the substring relation -/

theorem containsSub_iff : ∀ (needle hay : Str), containsSub needle hay = true ↔ needle <:+: hay
  | needle, [] => by
    simp only [containsSub, List.isEmpty_iff, List.infix_nil]
  | needle, c :: rest => by
    simp only [containsSub, Bool.or_eq_true, List.isPrefixOf_iff_prefix,
      containsSub_iff needle rest]
    constructor
    · intro h
      rcases h with h | h
      · exact h.isInfix
      · exact h.trans (List.suffix_cons c rest).isInfix
    · intro h
      rcases List.infix_cons_iff.1 h with h | h
      · exact Or.inl h
      · exact Or.inr h

/-! ## Pipeline inversion -/

theorem runPipeline_ok {t : Table} {out : PipelineOut}
    (h : runPipeline t = Except.ok out) :
    out.n = (retainedRows t).length ∧ 0 < out.n ∧
      ∃ mc uc lc,
        find_group_column t.columns mostKw = Except.ok mc ∧
        find_group_column t.columns neutralKw = Except.ok uc ∧
        find_group_column t.columns leastKw = Except.ok lc ∧
        tallyRows (retainedRows t) mc uc lc ≠ [] ∧
        out.ranking = rankCourses (tallyRows (retainedRows t) mc uc lc) out.n := by
  unfold runPipeline at h
  by_cases hn : (retainedRows t).length = 0
  · rw [if_pos hn] at h
    simp at h
  · rw [if_neg hn] at h
    rcases hmost : find_group_column t.columns mostKw with e | mc <;> rw [hmost] at h
    · simp at h
    rcases hneu : find_group_column t.columns neutralKw with e | uc <;> rw [hneu] at h
    · simp at h
    rcases hlea : find_group_column t.columns leastKw with e | lc <;> rw [hlea] at h
    · simp at h
    simp only at h
    by_cases hemp : (tallyRows (retainedRows t) mc uc lc).isEmpty
    · rw [if_pos hemp] at h
      simp at h
    · rw [if_neg hemp] at h
      have hout :
          ({ n := (retainedRows t).length,
             ranking := rankCourses (tallyRows (retainedRows t) mc uc lc)
               (retainedRows t).length } : PipelineOut) = out :=
        Except.ok.inj h
      subst hout
      refine ⟨rfl, Nat.pos_of_ne_zero hn, mc, uc, lc, rfl, rfl, rfl, ?_, rfl⟩
      intro hnil
      rw [hnil] at hemp
      simp at hemp

theorem tallyRows_nil {rows : List Row} {mc uc lc : Str}
    (h : ∀ r ∈ rows, split_courses (getCell r mc) = [] ∧
      split_courses (getCell r uc) = [] ∧ split_courses (getCell r lc) = []) :
    tallyRows rows mc uc lc = [] := by
  unfold tallyRows
  have haux : ∀ (rs : List Row) (t : Tally),
      (∀ r ∈ rs, split_courses (getCell r mc) = [] ∧
        split_courses (getCell r uc) = [] ∧ split_courses (getCell r lc) = []) →
      rs.foldl (fun acc r => tallyRow acc mc uc lc r) t = t := by
    intro rs
    induction rs with
    | nil => intro t _; rfl
    | cons r rs ih =>
      intro t hr
      have hhead := hr r (List.mem_cons_self _ _)
      have hrow : tallyRow t mc uc lc r = t := by
        unfold tallyRow
        rw [hhead.1, hhead.2.1, hhead.2.2]
        rfl
      rw [List.foldl_cons, hrow]
      exact ih t (fun q hq => hr q (List.mem_cons_of_mem _ hq))
  exact haux rows [] h

theorem runPipeline_noCoursesFound {t : Table} {mc uc lc : Str}
    (hn : (retainedRows t).length ≠ 0)
    (hm : find_group_column t.columns mostKw = Except.ok mc)
    (hu : find_group_column t.columns neutralKw = Except.ok uc)
    (hl : find_group_column t.columns leastKw = Except.ok lc)
    (hemp : tallyRows (retainedRows t) mc uc lc = []) :
    runPipeline t = Except.error Err.NoCoursesFound := by
  unfold runPipeline
  rw [if_neg hn, hm]
  simp only
  rw [hu]
  simp only
  rw [hl]
  simp only
  rw [hemp]
  rfl

/-! ## Concrete evaluation helpers -/

theorem mergeSort_one {α : Type} (a : α) (le : α → α → Bool) :
    List.mergeSort [a] le = [a] := by
  simp [List.mergeSort]

theorem mergeSort_two {α : Type} (a b : α) (le : α → α → Bool) :
    List.mergeSort [a, b] le = if le a b then [a, b] else [b, a] := by
  simp [List.mergeSort, List.merge]

def gmCol : Str := "Course Groups - Most Beneficial".toList

def gnCol : Str := "Course Groups - Neutral".toList

def glCol : Str := "Course Groups - Least Beneficial".toList

/-- A small table on which the pipeline completes: two respondents, of
whom only the first finished. -/
def exGood : Table :=
  { columns := [finishedLit, gmCol, gnCol, glCol]
    rows :=
      [[(finishedLit, some "True".toList), (gmCol, some "A, B".toList),
        (gnCol, some "A".toList), (glCol, none)],
       [(finishedLit, some "0".toList), (gmCol, some "B".toList),
        (gnCol, none), (glCol, none)]] }

def exTally : Tally := [("A".toList, ⟨1, 1, 0⟩), ("B".toList, ⟨1, 0, 0⟩)]

def eA : Entry := mkEntry 1 ("A".toList, ⟨1, 1, 0⟩)

def eB : Entry := mkEntry 1 ("B".toList, ⟨1, 0, 0⟩)

theorem rankCourses_exTally : rankCourses exTally 1 = [(1, eA), (2, eB)] := by
  unfold rankCourses
  rw [show exTally.map (mkEntry 1) = [eA, eB] from rfl]
  rw [mergeSort_two, if_pos (by decide)]
  rfl

theorem runPipeline_exGood :
    runPipeline exGood = Except.ok { n := 1, ranking := [(1, eA), (2, eB)] } := by
  unfold runPipeline
  rw [if_neg (by decide)]
  rw [show find_group_column exGood.columns mostKw = Except.ok gmCol from by decide]
  simp only
  rw [show find_group_column exGood.columns neutralKw = Except.ok gnCol from by decide]
  simp only
  rw [show find_group_column exGood.columns leastKw = Except.ok glCol from by decide]
  simp only
  rw [show tallyRows (retainedRows exGood) gmCol gnCol glCol = exTally from by decide]
  rw [if_neg (by decide)]
  rw [show (retainedRows exGood).length = 1 from by decide]
  rw [rankCourses_exTally]

/-- A table on which the pipeline completes with a score above 2: one
retained row naming course A as both most-beneficial and neutral. -/
def exBad : Table :=
  { columns := [gmCol, gnCol, glCol]
    rows := [[(gmCol, some "A".toList), (gnCol, some "A".toList), (glCol, none)]] }

def eBad : Entry := mkEntry 1 ("A".toList, ⟨1, 1, 0⟩)

theorem rankCourses_exBad :
    rankCourses [("A".toList, (⟨1, 1, 0⟩ : Counts))] 1 = [(1, eBad)] := by
  unfold rankCourses
  rw [show List.map (mkEntry 1) [("A".toList, (⟨1, 1, 0⟩ : Counts))] = [eBad] from rfl]
  rw [mergeSort_one]
  rfl

theorem runPipeline_exBad :
    runPipeline exBad = Except.ok { n := 1, ranking := [(1, eBad)] } := by
  unfold runPipeline
  rw [if_neg (by decide)]
  rw [show find_group_column exBad.columns mostKw = Except.ok gmCol from by decide]
  simp only
  rw [show find_group_column exBad.columns neutralKw = Except.ok gnCol from by decide]
  simp only
  rw [show find_group_column exBad.columns leastKw = Except.ok glCol from by decide]
  simp only
  rw [show tallyRows (retainedRows exBad) gmCol gnCol glCol
      = [("A".toList, (⟨1, 1, 0⟩ : Counts))] from by decide]
  rw [if_neg (by decide)]
  rw [show (retainedRows exBad).length = 1 from by decide]
  rw [rankCourses_exBad]

/-! ## The claims -/

/-- C1: on every completed run, each ranking entry's score is the exact
rational `(2*most + 1*neutral + 0*least) / N`, where `N` is the number
of retained rows after completion filtering (stored unchanged in every
entry), and `N` is positive because the pipeline stops with
`EmptyDataset` before scoring when no rows remain. -/
theorem C1_score_formula {t : Table} {out : PipelineOut}
    (h : runPipeline t = Except.ok out) :
    out.n = (retainedRows t).length ∧ 0 < out.n ∧
      ∀ p ∈ out.ranking,
        p.2.score = (2 * p.2.most + 1 * p.2.neutral + 0 * p.2.least : ℚ) / out.n ∧
        p.2.N = out.n := by
  obtain ⟨hn, hpos, mc, uc, lc, _, _, _, _, hrank⟩ := runPipeline_ok h
  refine ⟨hn, hpos, ?_⟩
  intro p hp
  have hsnd : p.2 ∈ out.ranking.map Prod.snd := List.mem_map_of_mem Prod.snd hp
  rw [hrank, rankCourses_map_snd, List.mem_mergeSort] at hsnd
  obtain ⟨q, _, hmk⟩ := List.mem_map.1 hsnd
  rw [← hmk]
  simp only [mkEntry]
  refine ⟨?_, trivial⟩
  rw [Rat.divInt_eq_div]
  push_cast
  ring

theorem C1_score_formula_witness :
    (1 : Nat) = (retainedRows exGood).length ∧ 0 < (1 : Nat) ∧
      ∀ p ∈ [(1, eA), (2, eB)],
        p.2.score = (2 * p.2.most + 1 * p.2.neutral + 0 * p.2.least : ℚ) / (1 : Nat) ∧
        p.2.N = 1 :=
  C1_score_formula runPipeline_exGood

/-- C2 as stated is false: on `exBad` the pipeline completes and course
A gets score 3, outside the claimed interval [0, 2]. -/
theorem C2_counterexample :
    ∃ out, runPipeline exBad = Except.ok out ∧
      ∃ p ∈ out.ranking, ¬(0 ≤ p.2.score ∧ p.2.score ≤ 2) :=
  ⟨_, runPipeline_exBad, (1, eBad), by simp, by decide⟩

/-- C2 amended: on every completed run each score is non-negative, and
the upper bound 2 holds for every course whose three counters sum to at
most `N` (one mention per retained row; the unrestricted bound fails
because a course may be mentioned several times by one row). -/
theorem C2_amended_bounds {t : Table} {out : PipelineOut}
    (h : runPipeline t = Except.ok out) :
    ∀ p ∈ out.ranking,
      0 ≤ p.2.score ∧
      (p.2.most + p.2.neutral + p.2.least ≤ out.n → p.2.score ≤ 2) := by
  obtain ⟨hn, hpos, mc, uc, lc, _, _, _, _, hrank⟩ := runPipeline_ok h
  intro p hp
  have hsnd : p.2 ∈ out.ranking.map Prod.snd := List.mem_map_of_mem Prod.snd hp
  rw [hrank, rankCourses_map_snd, List.mem_mergeSort] at hsnd
  obtain ⟨q, _, hmk⟩ := List.mem_map.1 hsnd
  rw [← hmk]
  simp only [mkEntry]
  have hn0 : (0 : ℚ) < (out.n : ℚ) := by exact_mod_cast hpos
  constructor
  · rw [Rat.divInt_eq_div]
    positivity
  · intro hsum
    rw [Rat.divInt_eq_div]
    push_cast
    rw [div_le_iff₀ hn0]
    have hsum' : (q.2.most : ℚ) + q.2.neutral + q.2.least ≤ (out.n : ℚ) := by
      exact_mod_cast hsum
    linarith

theorem C2_amended_witness :
    0 ≤ eB.score ∧ (eB.most + eB.neutral + eB.least ≤ 1 → eB.score ≤ 2) :=
  C2_amended_bounds runPipeline_exGood (2, eB) (by decide)

/-- C3: once the tally loop has finished, each course's three counters
sum to the number of (retained row, bucket) occurrences of the course
across the three resolved bucket columns, counting duplicates inside a
single comma-separated cell separately. -/
theorem C3_tally_total (rows : List Row) (mc uc lc : Str) (c : Str) :
    (tallyGet (tallyRows rows mc uc lc) c).most
        + (tallyGet (tallyRows rows mc uc lc) c).neutral
        + (tallyGet (tallyRows rows mc uc lc) c).least
      = (rows.map (fun r => rowOcc mc uc lc r c)).sum :=
  tallyGet_tallyRows_total rows mc uc lc c

/-- C4: the ranker emits the entries ordered by descending score, ties
broken by descending most count, then descending neutral count, then
ascending case-sensitive lexicographic course name; the emitted list is
a permutation of the scored tally entries, and each entry's rank is its
1-based position in that order. -/
theorem C4_ranker_order (stats : Tally) (n : Nat) :
    ((rankCourses stats n).map Prod.snd).Pairwise specBefore ∧
    ((rankCourses stats n).map Prod.snd).Perm (stats.map (mkEntry n)) ∧
    (rankCourses stats n).map Prod.fst = List.range' 1 stats.length :=
  ⟨rankCourses_sortedSpec stats n, rankCourses_perm stats n, rankCourses_map_fst stats n⟩

/-- C5: for a finished tally with `k` (distinct) courses, the assigned
ranks are exactly `1, …, k` in order — distinct course names, distinct
ranks, rank sum `k*(k+1)/2` — and the ranker is deterministic. -/
theorem C5_rank_invariants (rows : List Row) (mc uc lc : Str) (n : Nat) :
    (rankCourses (tallyRows rows mc uc lc) n).map Prod.fst
        = List.range' 1 (tallyRows rows mc uc lc).length ∧
    ((rankCourses (tallyRows rows mc uc lc) n).map Prod.fst).Nodup ∧
    ((rankCourses (tallyRows rows mc uc lc) n).map Prod.fst).sum
        = (tallyRows rows mc uc lc).length * ((tallyRows rows mc uc lc).length + 1) / 2 ∧
    (((rankCourses (tallyRows rows mc uc lc) n).map Prod.snd).map Entry.course).Nodup ∧
    rankCourses (tallyRows rows mc uc lc) n = rankCourses (tallyRows rows mc uc lc) n := by
  refine ⟨rankCourses_map_fst _ n, ?_, ?_, ?_, rfl⟩
  · rw [rankCourses_map_fst]
    exact List.nodup_range' _ _
  · rw [rankCourses_map_fst]
    have h2 := sum_range'_one (tallyRows rows mc uc lc).length
    omega
  · have hperm := (rankCourses_perm (tallyRows rows mc uc lc) n).map Entry.course
    have hkeys : ((tallyRows rows mc uc lc).map (mkEntry n)).map Entry.course
        = (tallyRows rows mc uc lc).map Prod.fst := by
      rw [List.map_map]
      rfl
    rw [hkeys] at hperm
    exact hperm.nodup_iff.2 (nodupKeys_tallyRows rows mc uc lc)

/-- C6: the course extractor maps a missing cell to the empty sequence;
otherwise it splits the text at every comma (rejoining the pieces with
commas recovers the text and no piece contains a comma), trims each
piece, and keeps the non-empty trimmed pieces in order with duplicates;
it is a pure function. -/
theorem C6_split_courses_contract :
    split_courses none = [] ∧
    ∀ s : Str,
      joinComma (splitComma s) = s ∧
      (∀ p ∈ splitComma s, ',' ∉ p) ∧
      split_courses (some s) = ((splitComma s).map pyStrip).filter (fun p => decide (p ≠ [])) :=
  ⟨rfl, fun s =>
    ⟨joinComma_splitComma s, splitComma_no_comma s [] (by simp), rfl⟩⟩

/-- C7: with a `Finished` column present, a cell passes the filter
exactly when its text, trimmed and lowercased, lies in
`{true, 1, yes, y, t}` (missing cells read as false); the retained rows
are the passing rows in their original order; without the column all
rows are kept; and the five sample cells normalize to
true, true, false, false, false. -/
theorem C7_finished_filter :
    (∀ t : Table, finishedLit ∈ t.columns →
      retainedRows t = t.rows.filter (fun r => normalize_finished (getCell r finishedLit)) ∧
      (retainedRows t).Sublist t.rows) ∧
    (∀ t : Table, finishedLit ∉ t.columns → retainedRows t = t.rows) ∧
    (∀ s : Str, normalize_finished (some s) = true ↔ pyLower (pyStrip s) ∈ truthy) ∧
    normalize_finished (some " True ".toList) = true ∧
    normalize_finished (some "YES".toList) = true ∧
    normalize_finished (some "0".toList) = false ∧
    normalize_finished (some "".toList) = false ∧
    normalize_finished (some "maybe".toList) = false ∧
    normalize_finished none = false := by
  refine ⟨?_, ?_, ?_, by decide, by decide, by decide, by decide, by decide, by decide⟩
  · intro t ht
    have hc : t.columns.contains finishedLit = true := List.elem_iff.2 ht
    unfold retainedRows
    rw [if_pos hc]
    exact ⟨rfl, List.filter_sublist t.rows⟩
  · intro t ht
    have hc : t.columns.contains finishedLit = false := by
      cases hx : t.columns.contains finishedLit
      · rfl
      · exact absurd (List.elem_iff.1 hx) ht
    unfold retainedRows
    rw [hc]
    simp
  · intro s
    simp only [normalize_finished]
    exact List.elem_iff

theorem C7_finished_filter_witness :
    finishedLit ∈ exGood.columns ∧
    retainedRows exGood
      = exGood.rows.filter (fun r => normalize_finished (getCell r finishedLit)) :=
  ⟨by decide, (C7_finished_filter.1 exGood (by decide)).1⟩

/-- C8: the column resolver filters the column names to those containing
both the substring `Groups` and the keyword; with exactly one match it
returns that column, and otherwise — zero or several matches — it fails
with `AmbiguousColumn`, reporting the keyword and the full (possibly
empty) match list. -/
theorem C8_column_resolver (columns : List Str) (keyword : Str) :
    (∀ c, c ∈ columns.filter (fun c => containsSub groupsLit c && containsSub keyword c)
        ↔ (c ∈ columns ∧ groupsLit <:+: c ∧ keyword <:+: c)) ∧
    ((columns.filter (fun c => containsSub groupsLit c && containsSub keyword c)).length = 1 →
      ∃ m, find_group_column columns keyword = Except.ok m ∧ m ∈ columns ∧
        groupsLit <:+: m ∧ keyword <:+: m) ∧
    ((columns.filter (fun c => containsSub groupsLit c && containsSub keyword c)).length ≠ 1 →
      find_group_column columns keyword
        = Except.error (Err.AmbiguousColumn keyword
            (columns.filter (fun c => containsSub groupsLit c && containsSub keyword c)))) := by
  have hmem : ∀ c,
      c ∈ columns.filter (fun c => containsSub groupsLit c && containsSub keyword c)
        ↔ (c ∈ columns ∧ groupsLit <:+: c ∧ keyword <:+: c) := by
    intro c
    rw [List.mem_filter, Bool.and_eq_true, containsSub_iff, containsSub_iff]
  refine ⟨hmem, ?_, ?_⟩
  · intro h1
    obtain ⟨m, hm⟩ := List.length_eq_one.1 h1
    have hmm : m ∈ columns.filter (fun c => containsSub groupsLit c && containsSub keyword c) := by
      rw [hm]
      exact List.mem_singleton_self m
    obtain ⟨hcol, hg, hk⟩ := (hmem m).1 hmm
    refine ⟨m, ?_, hcol, hg, hk⟩
    unfold find_group_column
    rw [hm]
  · intro hne
    unfold find_group_column
    rcases hf : columns.filter (fun c => containsSub groupsLit c && containsSub keyword c)
      with _ | ⟨a, _ | ⟨b, rest⟩⟩
    · rfl
    · rw [hf] at hne
      simp at hne
    · rfl

theorem C8_column_resolver_witness :
    (∃ m, find_group_column [gmCol, gnCol, glCol] mostKw = Except.ok m ∧
      m ∈ [gmCol, gnCol, glCol] ∧ groupsLit <:+: m ∧ mostKw <:+: m) ∧
    find_group_column [gmCol, gnCol] leastKw
      = Except.error (Err.AmbiguousColumn leastKw
          ([gmCol, gnCol].filter (fun c => containsSub groupsLit c && containsSub leastKw c))) :=
  ⟨(C8_column_resolver [gmCol, gnCol, glCol] mostKw).2.1 (by decide),
    (C8_column_resolver [gmCol, gnCol] leastKw).2.2 (by decide)⟩

/-- C9: when every bucket cell of every retained row yields an empty
course list, the run fails with `NoCoursesFound`; and on any error the
process writes neither the table file nor the image file. -/
theorem C9_no_courses_aborts :
    (∀ (t : Table) (mc uc lc : Str),
      retainedRows t ≠ [] →
      find_group_column t.columns mostKw = Except.ok mc →
      find_group_column t.columns neutralKw = Except.ok uc →
      find_group_column t.columns leastKw = Except.ok lc →
      (∀ r ∈ retainedRows t, split_courses (getCell r mc) = [] ∧
        split_courses (getCell r uc) = [] ∧ split_courses (getCell r lc) = []) →
      runPipeline t = Except.error Err.NoCoursesFound ∧ outputFiles t = []) ∧
    (∀ (t : Table) (e : Err), runPipeline t = Except.error e → outputFiles t = []) := by
  constructor
  · intro t mc uc lc hne hm hu hl hcells
    have hn : (retainedRows t).length ≠ 0 := fun h0 => hne (List.length_eq_zero.1 h0)
    have hrun := runPipeline_noCoursesFound hn hm hu hl (tallyRows_nil hcells)
    refine ⟨hrun, ?_⟩
    unfold outputFiles
    rw [hrun]
  · intro t e he
    unfold outputFiles
    rw [he]

/-- A table whose single retained row has only separators, blanks and
missing values in its bucket cells. -/
def exNoCourses : Table :=
  { columns := [gmCol, gnCol, glCol]
    rows := [[(gmCol, some " , ".toList), (gnCol, none), (glCol, some "".toList)]] }

theorem C9_no_courses_aborts_witness :
    runPipeline exNoCourses = Except.error Err.NoCoursesFound ∧
    outputFiles exNoCourses = [] :=
  C9_no_courses_aborts.1 exNoCourses gmCol gnCol glCol (by decide) (by decide) (by decide)
    (by decide) (by decide)

theorem tallyRow_clean {t : Tally} {mc uc lc : Str} {r : Row}
    (ht : ∀ p ∈ t, (p.1 ≠ [] ∧ pyStrip p.1 = p.1) ∧ 1 ≤ p.2.total) :
    ∀ p ∈ tallyRow t mc uc lc r, (p.1 ≠ [] ∧ pyStrip p.1 = p.1) ∧ 1 ≤ p.2.total := by
  unfold tallyRow
  exact @addCourses_inv (fun s => s ≠ [] ∧ pyStrip s = s) _ _ _
    (@addCourses_inv _ _ _ _
      (@addCourses_inv _ _ _ _ ht (fun c hc => split_courses_clean hc))
      (fun c hc => split_courses_clean hc))
    (fun c hc => split_courses_clean hc)

theorem tallyRows_clean (rows : List Row) (mc uc lc : Str) :
    ∀ p ∈ tallyRows rows mc uc lc,
      p.1 ≠ [] ∧ pyStrip p.1 = p.1 ∧ 1 ≤ p.2.most + p.2.neutral + p.2.least := by
  have haux : ∀ (rs : List Row) (t : Tally),
      (∀ p ∈ t, (p.1 ≠ [] ∧ pyStrip p.1 = p.1) ∧ 1 ≤ p.2.total) →
      ∀ p ∈ rs.foldl (fun acc r => tallyRow acc mc uc lc r) t,
        (p.1 ≠ [] ∧ pyStrip p.1 = p.1) ∧ 1 ≤ p.2.total := by
    intro rs
    induction rs with
    | nil => exact fun t ht => ht
    | cons r rs ih => exact fun t ht => ih _ (tallyRow_clean ht)
  intro p hp
  obtain ⟨⟨h1, h2⟩, h3⟩ := haux rows [] (by simp) p hp
  exact ⟨h1, h2, h3⟩

/-- C10: every key of the finished tally — and hence the course of every
row of the ranking output — is a non-empty course token with no leading
or trailing whitespace whose three counters sum to at least 1, because
entries are created only while counting a stripped, non-empty extracted
token. -/
theorem C10_tally_keys :
    (∀ (rows : List Row) (mc uc lc : Str), ∀ p ∈ tallyRows rows mc uc lc,
      p.1 ≠ [] ∧ pyStrip p.1 = p.1 ∧ 1 ≤ p.2.most + p.2.neutral + p.2.least) ∧
    (∀ (t : Table) (out : PipelineOut), runPipeline t = Except.ok out →
      ∀ q ∈ out.ranking, q.2.course ≠ [] ∧ pyStrip q.2.course = q.2.course ∧
        1 ≤ q.2.most + q.2.neutral + q.2.least) := by
  refine ⟨tallyRows_clean, ?_⟩
  intro t out h q hq
  obtain ⟨_, _, mc, uc, lc, _, _, _, _, hrank⟩ := runPipeline_ok h
  have hsnd : q.2 ∈ out.ranking.map Prod.snd := List.mem_map_of_mem Prod.snd hq
  rw [hrank, rankCourses_map_snd, List.mem_mergeSort] at hsnd
  obtain ⟨p, hp, hmk⟩ := List.mem_map.1 hsnd
  rw [← hmk]
  exact tallyRows_clean (retainedRows t) mc uc lc p hp

theorem C10_tally_keys_witness :
    ("A".toList, (⟨1, 1, 0⟩ : Counts)) ∈ tallyRows (retainedRows exGood) gmCol gnCol glCol ∧
    ("A".toList ≠ [] ∧ pyStrip "A".toList = "A".toList ∧ 1 ≤ 1 + 1 + 0) :=
  ⟨by decide, C10_tally_keys.1 (retainedRows exGood) gmCol gnCol glCol
    ("A".toList, ⟨1, 1, 0⟩) (by decide)⟩

end DataWorkflow
